import Mathlib

/-!
Verification of the lottery-draw extraction pipeline
(`layer2/extract_from_snaps.py` and `layer2/parse_and_classify.py`).

The Python source is shallowly embedded: pure helper functions become Lean
functions, Python `dict`s with insertion order become association lists,
`None`-able values become `Option`, and the ambient wall clock, which the
source reads via `datetime.now` / `datetime.utcnow` / `date.today`, is passed
explicitly as an argument.  Machine integers are modelled as `Int`/`Nat`
(Python integers are unbounded, so no wrap-around modelling is needed).
Parsed datetimes are modelled at second granularity, as in CPython's
`datetime` arithmetic.
-/

/-! ### Generic numeric/string helpers (decimal printing and parsing)

These model CPython's `str(int)` and `int(str)` on the strings the pipeline
actually produces (an optional `-` sign followed by decimal digits). -/

/-- Decimal digits of `n`, least significant first; `[]` for `0`. -/
def natDigitsRev (n : Nat) : List Nat :=
  if h : n = 0 then [] else n % 10 :: natDigitsRev (n / 10)
decreasing_by exact Nat.div_lt_self (Nat.pos_of_ne_zero h) (by omega)

/-- The character for a single decimal digit `d < 10`. -/
def digitCh (d : Nat) : Char := Char.ofNat (d + 48)

/-- The decimal numeral of `n`, as CPython's `str` prints a nonnegative int. -/
def natToChars (n : Nat) : List Char :=
  if n = 0 then ['0'] else (natDigitsRev n).reverse.map digitCh

def natToStr (n : Nat) : String := ⟨natToChars n⟩

/-- CPython `str` of an arbitrary int: a `-` sign for negatives, then digits. -/
def intToStr (i : Int) : String :=
  match i with
  | .ofNat n => natToStr n
  | .negSucc n => ⟨'-' :: natToChars (n + 1)⟩

/-- Value of a most-significant-first digit list (`int` of a digit string). -/
def parseNatChars (cs : List Char) : Nat :=
  cs.foldl (fun a c => 10 * a + (c.toNat - 48)) 0

/-- CPython `int(s)` on an optional-sign decimal numeral; `none` when `s` is
not of that shape. -/
def parseIntStr (s : String) : Option Int :=
  match s.data with
  | [] => none
  | '-' :: cs => if cs ≠ [] ∧ cs.all Char.isDigit then some (-(parseNatChars cs : Int)) else none
  | cs => if cs.all Char.isDigit then some (parseNatChars cs : Int) else none

/-- Whitespace characters recognised by CPython's `str.split()` (ASCII part;
the pipeline never emits non-ASCII whitespace). -/
def isWsChar (c : Char) : Bool :=
  c = ' ' ∨ c = '\t' ∨ c = '\n' ∨ c = '\x0b' ∨ c = '\x0c' ∨ c = '\r'

/-- Helper for `splitWs`: `acc` holds the current token, reversed. -/
def splitWsAux : List Char → List Char → List (List Char)
  | [], acc => if acc = [] then [] else [acc.reverse]
  | c :: rest, acc =>
    if isWsChar c then
      if acc = [] then splitWsAux rest [] else acc.reverse :: splitWsAux rest []
    else splitWsAux rest (c :: acc)

/-- CPython `s.split()`: split on runs of whitespace, dropping empty pieces. -/
def splitWs (s : String) : List String :=
  (splitWsAux s.data []).map fun cs => ⟨cs⟩

/-- CPython `" ".join` on character lists: a single space between parts. -/
def joinChars : List (List Char) → List Char
  | [] => []
  | [t] => t
  | t :: ts => t ++ ' ' :: joinChars ts

/-- CPython `" ".join(strs)`. -/
def joinSpace (parts : List String) : String :=
  ⟨joinChars (parts.map String.data)⟩

/-! ### `extract_from_snaps.py` — game rule table and validator -/

/-- One entry of `GAME_RULES`: `"main": (mainCount, lo, hi)`,
`"bonus": (bonusCount, blo, bhi)`, `"bonus_name"`. -/
structure GameRule where
  mainCount : Nat
  lo : Int
  hi : Int
  bonusCount : Nat
  blo : Int
  bhi : Int
  bonusName : String
deriving DecidableEq

/-- The static `GAME_RULES` table of `extract_from_snaps.py`. -/
def GAME_RULES : List (String × GameRule) :=
  [ ("Powerball",      ⟨5, 1, 69, 1, 1, 26, "Powerball"⟩),
    ("Mega Millions",  ⟨5, 1, 70, 1, 1, 25, "Mega Ball"⟩),
    ("Lucky for Life", ⟨5, 1, 48, 1, 1, 18, "Lucky Ball"⟩),
    ("Cash4Life",      ⟨5, 1, 60, 1, 1, 4,  "Cash Ball"⟩),
    ("Lotto America",  ⟨5, 1, 52, 1, 1, 10, "Star Ball"⟩) ]

/-- Python `GAME_RULES.get(game)`. -/
def gameRules (game : String) : Option GameRule :=
  (GAME_RULES.find? fun p => p.1 = game).map Prod.snd

/-- The shapes a Python `bonus` argument takes at the validator's call sites:
`None`, an `int`, or a list of values (each itself `int` or not). -/
inductive PyB where
  | pnone : PyB
  | pint : Int → PyB
  | plist : List PyB → PyB

/-- Function `validate_numbers(game, nums, bonus)` (lines 81–93).  Returns `False` for
an unknown game, a wrong main-ball count, an out-of-range main ball, a missing
bonus, or a bonus outside the bonus range; a one-element int list is accepted
like the int itself.  The Python `isinstance(x, int)` test on main balls is
expressed by the `List Int` type of `nums`. -/
def validate_numbers (game : String) (nums : List Int) (bonus : PyB) : Bool :=
  match gameRules game with
  | none => false
  | some rule =>
    if nums.length ≠ rule.mainCount then false
    else if ¬ nums.all (fun x => rule.lo ≤ x ∧ x ≤ rule.hi) then false
    else
      match bonus with
      | .pnone => false
      | .pint b => rule.blo ≤ b ∧ b ≤ rule.bhi
      | .plist [.pint b] => rule.blo ≤ b ∧ b ≤ rule.bhi
      | .plist _ => false

/-! ### `extract_from_snaps.py` — `sane_date` (the recency window) -/

/-- A parsed timezone-aware datetime as `dateutil.parser.parse` returns it:
the calendar year plus the UTC timestamp in whole seconds.  (`sane_date`
forces naive datetimes to UTC before subtracting.) -/
structure PDT where
  year : Int
  sec : Int
deriving DecidableEq

def LAST_N_DAYS : Int := 14

def SECONDS_PER_DAY : Int := 86400

/-- The UTC calendar day index of a timestamp (`dt.date()` up to the bijection
between days and their ISO strings). -/
def dayOf (sec : Int) : Int := Int.fdiv sec SECONDS_PER_DAY

/-- Function `sane_date(date_str)` (lines 68–79), with the parse made explicit: the
argument is `none` when `dateparser.parse` raised (the `except` branch) and
`some dt` otherwise; `now` is the module-level `NOW`/`THIS_YEAR` clock.
Returns the UTC day index standing for `dt.date().isoformat()`.
`(NOW - dt).days` is CPython `timedelta.days`, i.e. floor division. -/
def sane_date (now : PDT) (parsed : Option PDT) : Option Int :=
  match parsed with
  | none => none
  | some dt =>
    if dt.year < now.year - 1 ∨ dt.year > now.year then none
    else
      let days := Int.fdiv (now.sec - dt.sec) SECONDS_PER_DAY
      if days < 0 ∨ days > LAST_N_DAYS then none
      else some (dayOf dt.sec)

/-! ### `extract_from_snaps.py` — record assembly and deduplication -/

/-- The record dict built by `to_record` (lines 102–117).  `date` is the UTC
day index of the ISO date; `fetched_at` is the `datetime.utcnow()` stamp, in
seconds, taken when the record is assembled. -/
structure SnapRec where
  date : Int
  game : String
  numbers : List Int
  jackpot_usd : Option Int
  winners : Option Int
  source_url : String
  fetched_at : Int
  extraction_method : String
  confidence : Option Int
deriving DecidableEq

instance : Inhabited SnapRec :=
  ⟨⟨0, "", [], none, none, "", 0, "", none⟩⟩

/-- Function `to_record(game, iso_date, nums, bonus, jackpot, source_url,
method, confidence)`.  A non-int, nonempty list bonus is replaced by its head; an int
bonus is appended to the main numbers, anything else is dropped.  `clock` is
the `datetime.utcnow()` reading. -/
def to_record (game : String) (iso_date : Int) (nums : List Int) (bonus : PyB)
    (jackpot : Option Int) (source_url : String) (method : String)
    (confidence : Option Int) (clock : Int) : SnapRec :=
  let bonus' : PyB :=
    match bonus with
    | .plist (x :: _) => x
    | b => b
  { date := iso_date
    game := game
    numbers := nums ++ (match bonus' with | .pint b => [b] | _ => [])
    jackpot_usd := jackpot
    winners := none
    source_url := source_url
    fetched_at := clock
    extraction_method := method
    confidence := confidence }

/-- The dedup uniqueness key `(r["game"], r["date"], tuple(r["numbers"]))`. -/
abbrev SnapKey := String × Int × List Int

def keyOf (r : SnapRec) : SnapKey := (r.game, r.date, r.numbers)

/-- The `rank = {"json":3, "html":2, "vision":1}` confidence table, with
`dict.get`'s default `0` for unknown methods. -/
def rankOf (method : String) : Nat :=
  if method = "json" then 3 else if method = "html" then 2
  else if method = "vision" then 1 else 0

def methodRank (r : SnapRec) : Nat := rankOf r.extraction_method

/-- Lookup in an insertion-ordered dict modelled as an association list. -/
def lookupK (k : SnapKey) : List (SnapKey × SnapRec) → Option SnapRec
  | [] => none
  | (k', r) :: t => if k' = k then some r else lookupK k t

/-- Assignment `seen[key] = r` on an insertion-ordered dict: overwrite in place if the
key exists, append otherwise. -/
def setK (k : SnapKey) (v : SnapRec) : List (SnapKey × SnapRec) → List (SnapKey × SnapRec)
  | [] => [(k, v)]
  | (k', r) :: t => if k' = k then (k, v) :: t else (k', r) :: setK k v t

/-- The body of `dedupe_keep_best`'s loop: keep the incoming record if its key
is new or its method outranks the stored record's. -/
def dedupeStep (seen : List (SnapKey × SnapRec)) (r : SnapRec) : List (SnapKey × SnapRec) :=
  match lookupK (keyOf r) seen with
  | none => setK (keyOf r) r seen
  | some old =>
    if rankOf old.extraction_method < rankOf r.extraction_method then setK (keyOf r) r seen
    else seen

/-- Function `dedupe_keep_best(records)` (lines 119–126): fold the records through the
`seen` dict and return `list(seen.values())`. -/
def dedupe_keep_best (records : List SnapRec) : List SnapRec :=
  (records.foldl dedupeStep []).map Prod.snd

/-- The per-key effect of one `dedupeStep` on the stored value (used to state
what `dedupe_keep_best` keeps for a single key). -/
def keepBetter (o : Option SnapRec) (r : SnapRec) : Option SnapRec :=
  match o with
  | none => some r
  | some old =>
    if rankOf old.extraction_method < rankOf r.extraction_method then some r else some old

/-! ### `extract_from_snaps.py` — game detection and the HTML lane -/

/-- Test `startsWithChars hay pat`: `pat` is an initial segment of `hay`. -/
def startsWithChars : List Char → List Char → Bool
  | _, [] => true
  | [], _ :: _ => false
  | c :: cs, p :: ps => c = p && startsWithChars cs ps

/-- Python's `pat in hay` substring test, on character lists. -/
def hasSubChars (hay pat : List Char) : Bool :=
  if startsWithChars hay pat then true
  else
    match hay with
    | [] => false
    | _ :: t => hasSubChars t pat

def strContains (hay pat : String) : Bool := hasSubChars hay.data pat.data

/-- The `GAME_HINTS` table (lines 36–42). -/
def GAME_HINTS : List (String × List String) :=
  [ ("Powerball", ["powerball", "double play"]),
    ("Mega Millions", ["mega", "megamillions", "mega millions"]),
    ("Lucky for Life", ["lucky for life", "luckyforlife"]),
    ("Cash4Life", ["cash4life", "cash for life", "cash 4 life"]),
    ("Lotto America", ["lotto america", "lottoamerica"]) ]

/-- Function `detect_game(context_text, url)` (lines 95–100): lower-case the context
and return the first hinted game whose any hint occurs as a substring. -/
def detect_game (context_text url : String) : Option String :=
  let ctx := (context_text ++ " " ++ url).toLower
  (GAME_HINTS.find? fun p => p.2.any fun h => strContains ctx h).map Prod.fst

/-- Word characters `\w` for the ASCII text the soft-404 markers consist of. -/
def isWordChar (c : Char) : Bool := c.isAlphanum || c = '_'

/-- Alternative `404` of the soft-404 regex. -/
def pat404 : List (Option Char) := [some '4', some '0', some '4']

/-- Alternative `not found`. -/
def patNotFound : List (Option Char) :=
  [some 'n', some 'o', some 't', some ' ', some 'f', some 'o', some 'u', some 'n', some 'd']

/-- Alternative `page wasn.t a winner`; `none` is the regex `.` wildcard. -/
def patWinner : List (Option Char) :=
  [some 'p', some 'a', some 'g', some 'e', some ' ', some 'w', some 'a', some 's',
   some 'n', none, some 't', some ' ', some 'a', some ' ', some 'w', some 'i',
   some 'n', some 'n', some 'e', some 'r']

/-- Case-insensitive literal/wildcard match at the head of `cs`; the regex `.`
matches any character except a newline. Returns the rest on success. -/
def patMatchCI : List (Option Char) → List Char → Option (List Char)
  | [], rest => some rest
  | _ :: _, [] => none
  | some p :: ps, c :: cs => if c.toLower = p then patMatchCI ps cs else none
  | none :: ps, c :: cs => if c = '\n' then none else patMatchCI ps cs

/-- The closing `\b`: the next character, if any, is not a word character
(every alternative ends in a word character). -/
def nonWordNext : List Char → Bool
  | [] => true
  | c :: _ => ¬ isWordChar c

/-- Some alternative of `(404|not found|page wasn.t a winner)` matches at the
head of `cs`, followed by a word boundary. -/
def altThere (cs : List Char) : Bool :=
  [pat404, patNotFound, patWinner].any fun pat =>
    match patMatchCI pat cs with
    | some rest => nonWordNext rest
    | none => false

/-- Scan for a match position; `prevNonWord` tracks the opening `\b` (every
alternative starts with a word character, so the previous character must not
be one). -/
def scan404 (prevNonWord : Bool) : List Char → Bool
  | [] => false
  | c :: cs => (prevNonWord && altThere (c :: cs)) || scan404 (¬ isWordChar c) cs

/-- The test that `re.search` of the case-insensitive soft-404 pattern —
alternatives `404`, `not found`, `page wasn.t a winner` between word
boundaries — finds a match in `text` (line 359). -/
def soft404 (text : String) : Bool := scan404 true text.data

/-- Function `apply_adapter_html(html, url)` (lines 154–238).  The `ADAPTERS` registry
is built from `layer2/adapters/*.yaml`; the repository ships no such files
(and none are created at runtime), so `ADAPTERS.get(host, [])` is `[]` for
every host and the function returns `[]` before any scanning. -/
def apply_adapter_html (_html _url : String) : List SnapRec := []

/-- Function `extract_from_html(html, url)` (lines 349–388).  The BeautifulSoup text
rendering and the `NUMS_RX`/`BONUS_RX`/`DATE_RX`/jackpot regex searches and
the `dateutil` parse are abstracted as function arguments (`textOf`,
`numsHit` = the `\d{1,2}` findall over the `NUMS_RX` match, `bonusHit`,
`dateHit`, `parseDT`, `jackpotHit`); the control flow is the source's. -/
def extract_from_html (textOf : String → String)
    (numsHit : String → Option (List Int)) (bonusHit : String → Option Int)
    (dateHit : String → Option String) (parseDT : String → Option PDT)
    (jackpotHit : String → Option Int) (now : PDT) (clock : Int)
    (html url : String) : List SnapRec :=
  let recs := apply_adapter_html html url
  if recs ≠ [] then recs
  else
    let text := textOf html
    if soft404 text then []
    else
      match detect_game text url with
      | none => []
      | some game =>
        match numsHit text with
        | none => []
        | some ns =>
          let nums := ns.take 5
          let b : PyB := match bonusHit text with | some i => .pint i | none => .pnone
          let iso : Option Int :=
            match dateHit text with
            | some d => sane_date now (parseDT d)
            | none => none
          match iso with
          | none => []
          | some iso' =>
            if ¬ validate_numbers game (nums.take 5) b then []
            else [to_record game iso' (nums.take 5) b (jackpotHit text) url "html" none clock]

/-! ### `extract_from_snaps.py` — the per-capture fallback chain in `main` -/

/-- One capture as `main` (lines 419–473) sees it: the optional `.body.json`,
`.network.json` (a list of entries, each reduced to its `body` string),
`.html` and `.full.png` artifacts next to the `.meta.json` sidecar.  A `none`
field is a missing file (`os.path.exists` false). -/
structure Capture where
  body : Option String
  network : Option (List String)
  html : Option String
  png : Option String

/-- Lane A0: `extract_from_network_json` on the clean `.body.json` file. -/
def laneA0 (en : String → List SnapRec) (c : Capture) : List SnapRec :=
  match c.body with
  | some b => en b
  | none => []

/-- The `for n in nets` loop of lane A: the first network entry yielding a
nonempty extraction wins; otherwise nothing. -/
def firstRecs (en : String → List SnapRec) : List String → List SnapRec
  | [] => []
  | s :: t => let r := en s; if r = [] then firstRecs en t else r

/-- Lane A: `extract_from_network_json` over the `.network.json` entries. -/
def laneANet (en : String → List SnapRec) (c : Capture) : List SnapRec :=
  match c.network with
  | some ns => firstRecs en ns
  | none => []

/-- Lane B: `extract_from_html` on the `.html` file. -/
def laneBH (eh : String → List SnapRec) (c : Capture) : List SnapRec :=
  match c.html with
  | some h => eh h
  | none => []

/-- Lane C: `extract_with_vision` on the `.full.png` screenshot. -/
def laneCV (ev : String → List SnapRec) (c : Capture) : List SnapRec :=
  match c.png with
  | some p => ev p
  | none => []

/-- The per-capture body of `main`'s loop (lines 428–473): try lane A0, then
lane A, then lane B, then lane C, taking the first lane whose (internally
validated) extraction is nonempty; `continue` after a hit skips every later
lane.  The extractors (with the capture's URL already applied) are passed as
functions. -/
def processCapture (en eh ev : String → List SnapRec) (c : Capture) : List SnapRec :=
  let a0 := laneA0 en c
  if a0 ≠ [] then a0
  else
    let a := laneANet en c
    if a ≠ [] then a
    else
      let b := laneBH eh c
      if b ≠ [] then b
      else laneCV ev c

/-! ### `parse_and_classify.py` — `normalize_date` and its regexes

Each `re.search` is embedded as a leftmost scan; greedy counted repetitions
with backtracking (`\d{1,2}`, `\d{2,4}`) are an explicit enumeration of
lengths in the order the engine tries them (longest first, inner groups
exhausted before outer ones give back characters). -/

/-- Take exactly `k` decimal digits off the head, returning them and the rest. -/
def takeDigits : Nat → List Char → Option (List Char × List Char)
  | 0, cs => some ([], cs)
  | _ + 1, [] => none
  | k + 1, c :: cs =>
    if c.isDigit then (takeDigits k cs).map fun p => (c :: p.1, p.2) else none

/-- Case-insensitive: `pat` (given lowercase) heads `cs`. -/
def startsWithCI : List Char → List Char → Bool
  | _, [] => true
  | [], _ :: _ => false
  | c :: cs, p :: ps => c.toLower = p && startsWithCI cs ps

/-- The ISO pattern — four digits, a dash or slash, two digits, a dash or
slash, two digits — at the head of the list (all counted repetitions are
exact, so there is no backtracking). -/
def isoAt : List Char → Option (String × String × String)
  | a :: b :: c :: d :: s1 :: e :: f :: s2 :: g :: h :: _ =>
    if a.isDigit && b.isDigit && c.isDigit && d.isDigit && (s1 = '-' ∨ s1 = '/')
        && e.isDigit && f.isDigit && (s2 = '-' ∨ s2 = '/') && g.isDigit && h.isDigit then
      some (⟨[a, b, c, d]⟩, ⟨[e, f]⟩, ⟨[g, h]⟩)
    else none
  | _ => none

/-- Search `re.search` for the ISO pattern: leftmost match position. -/
def isoSearch : List Char → Option (String × String × String)
  | [] => none
  | c :: cs =>
    match isoAt (c :: cs) with
    | some r => some r
    | none => isoSearch cs

/-- One attempt of `(\d{1,2})/(\d{1,2})/(\d{2,4})` with the given group
lengths; `bdy` adds the trailing `\b` (absent in the `draw date` pattern). -/
def slashAttempt (bdy : Bool) (mmLen ddLen yyLen : Nat) (cs : List Char) :
    Option (List Char × List Char × List Char) :=
  match takeDigits mmLen cs with
  | none => none
  | some (mm, r1) =>
    match r1 with
    | '/' :: r2 =>
      match takeDigits ddLen r2 with
      | none => none
      | some (dd, r3) =>
        match r3 with
        | '/' :: r4 =>
          match takeDigits yyLen r4 with
          | none => none
          | some (yy, r5) =>
            if bdy then (if nonWordNext r5 then some (mm, dd, yy) else none)
            else some (mm, dd, yy)
        | _ => none
    | _ => none

/-- All backtracking orders for the slash date: month length 2 before 1, day
length 2 before 1, year length 4 before 3 before 2. -/
def slashAt (bdy : Bool) (cs : List Char) : Option (List Char × List Char × List Char) :=
  (([2, 1].flatMap fun mmLen => [2, 1].flatMap fun ddLen => [4, 3, 2].map fun yyLen =>
      slashAttempt bdy mmLen ddLen yyLen cs).find? Option.isSome).join

/-- Search for the anchored slash-date pattern
`\b(\d{1,2})/(\d{1,2})/(\d{2,4})\b`: leftmost position
whose preceding character is not a word character (the opening `\b`; the
pattern starts with a digit). -/
def slashScan (prevNonWord : Bool) : List Char → Option (List Char × List Char × List Char)
  | [] => none
  | c :: cs =>
    match (if prevNonWord then slashAt true (c :: cs) else none) with
    | some r => some r
    | none => slashScan (¬ isWordChar c) cs

/-- The `MONTHS` tuple of `parse_and_classify.py`. -/
def MONTHS : List String :=
  ["jan", "feb", "mar", "apr", "may", "jun", "jul", "aug", "sep", "oct", "nov", "dec"]

/-- Pattern `\b(jan|...|dec)[a-z]*\s+(\d{1,2}),\s*(\d{4})` (case-insensitive)
at the
head: a month alternative, a maximal run of letters, at least one whitespace,
a 1–2 digit day, a comma, optional whitespace, four digits.  Returns the
(lower-cased three-letter) month, the day digits and the year digits. -/
def monthAt (cs : List Char) : Option (String × List Char × List Char) :=
  match MONTHS.find? fun m => startsWithCI cs m.data with
  | none => none
  | some m =>
    let r1 := (cs.drop 3).dropWhile Char.isAlpha
    match r1 with
    | [] => none
    | c :: _ =>
      if ¬ isWsChar c then none
      else
        let r2 := r1.dropWhile isWsChar
        let dayTry := fun (k : Nat) =>
          match takeDigits k r2 with
          | some (dd, ',' :: r3) =>
            match takeDigits 4 (r3.dropWhile isWsChar) with
            | some (yyyy, _) => some (m, dd, yyyy)
            | none => none
          | _ => none
        match dayTry 2 with
        | some r => some r
        | none => dayTry 1

/-- Leftmost scan for the month-name pattern (its `\b` needs a non-word
predecessor; months start with a letter). -/
def monthScan (prevNonWord : Bool) : List Char → Option (String × List Char × List Char)
  | [] => none
  | c :: cs =>
    match (if prevNonWord then monthAt (c :: cs) else none) with
    | some r => some r
    | none => monthScan (¬ isWordChar c) cs

/-- Repetition `[^0-9]{0,8}` followed by a digit: skip at most `budget` non-digit
characters and stop at the first digit (greedy + backtracking collapses to
this, since the skipped characters can never satisfy the following `\d`). -/
def skipNonDigits : Nat → List Char → Option (List Char)
  | _, [] => none
  | budget, c :: cs =>
    if c.isDigit then some (c :: cs)
    else
      match budget with
      | 0 => none
      | b + 1 => skipNonDigits b cs

/-- Pattern `draw\s*date[^0-9]{0,8}(\d{1,2}/\d{1,2}/\d{2,4})`
(case-insensitive, no
word boundaries) at the head of the list; returns the slash-date group. -/
def drawAt (cs : List Char) : Option (List Char × List Char × List Char) :=
  if startsWithCI cs ['d', 'r', 'a', 'w'] then
    let r1 := (cs.drop 4).dropWhile isWsChar
    if startsWithCI r1 ['d', 'a', 't', 'e'] then
      match skipNonDigits 8 (r1.drop 4) with
      | some r2 => slashAt false r2
      | none => none
    else none
  else none

/-- Leftmost scan for the `draw date` pattern. -/
def drawScan : List Char → Option (List Char × List Char × List Char)
  | [] => none
  | c :: cs =>
    match drawAt (c :: cs) with
    | some r => some r
    | none => drawScan cs

/-- CPython's `f"{n:0wd}"` zero-padded decimal. -/
def padZ (w : Nat) (n : Nat) : String :=
  ⟨List.replicate (w - (natToStr n).data.length) '0' ++ (natToStr n).data⟩

/-- Function `normalize_date(any_text)` (lines 59–94), with `datetime.date.today()`
passed as `today` and `None` as `none`.  `fuel` bounds the self-call in the
`draw date` branch; the recursed argument always matches the slash shape, so
depth 1 suffices and the fuel-exhausted value is never reached from
`normalize_date`. -/
def normalizeCore (today : String) : Nat → Option String → String
  | _, none => today
  | fuel, some s =>
    if s.data = [] then today
    else
      match isoSearch s.data with
      | some (y, mo, d) => y ++ "-" ++ mo ++ "-" ++ d
      | none =>
        match slashScan true s.data with
        | some (mm, dd, yy) =>
          let yyyy : List Char := if yy.length = 4 then yy else '2' :: '0' :: yy
          padZ 4 (parseNatChars yyyy) ++ "-" ++ padZ 2 (parseNatChars mm) ++ "-"
            ++ padZ 2 (parseNatChars dd)
        | none =>
          match monthScan true s.data with
          | some (m, dd, yyyy) =>
            let monthIdx := MONTHS.indexOf m + 1
            padZ 4 (parseNatChars yyyy) ++ "-" ++ padZ 2 monthIdx ++ "-"
              ++ padZ 2 (parseNatChars dd)
          | none =>
            match drawScan s.data with
            | some (mm, dd, yy) =>
              match fuel with
              | 0 => ⟨(mm ++ '/' :: dd ++ '/' :: yy).take 10⟩
              | fuel' + 1 => normalizeCore today fuel' (some ⟨mm ++ '/' :: dd ++ '/' :: yy⟩)
            | none => ⟨s.data.take 10⟩

/-- Function `normalize_date` proper. -/
def normalize_date (today : String) (anyText : Option String) : String :=
  normalizeCore today 2 anyText

/-! ### `parse_and_classify.py` — record assembly, dedup and sort -/

/-- The record dict of `make_record` (lines 96–105). -/
structure PcRec where
  date : String
  game : String
  numbers : List Int
  jackpot_usd : Option Int
  winners : Option Int
  source_url : String
  fetched_at : String
deriving DecidableEq

/-- Function `make_record(...)`: `to_int_list` is the identity on an int list, and the
`isinstance(..., int)` guards on jackpot/winners are the `Option Int` types. -/
def make_record (date game : String) (numbers : List Int)
    (jackpot_usd winners : Option Int) (source_url fetched_at : String) : PcRec :=
  { date := date, game := game, numbers := numbers, jackpot_usd := jackpot_usd,
    winners := winners, source_url := source_url, fetched_at := fetched_at }

def pcKey (r : PcRec) : String × String × List Int := (r.game, r.date, r.numbers)

/-- The `seen`-set dedup of `parse_and_classify.main` (lines 789–796): keep
the first record of each `(game, date, numbers)` key. -/
def pcDedupe : List PcRec → List (String × String × List Int) → List PcRec
  | [], _ => []
  | r :: t, seen =>
    if pcKey r ∈ seen then pcDedupe t seen else r :: pcDedupe t (pcKey r :: seen)

/-- The sort key comparison: Python tuple `<` on `(date, game)`. -/
def pcKeyLtB (a b : PcRec) : Bool :=
  decide (a.date < b.date ∨ (a.date = b.date ∧ a.game < b.game))

/-- Stable descending insertion: a record goes in front of the first strictly
smaller one, after any equal keys already placed. -/
def insDesc (r : PcRec) : List PcRec → List PcRec
  | [] => [r]
  | y :: t => if pcKeyLtB y r then r :: y :: t else y :: insDesc r t

/-- Python `unique.sort(key=lambda r: (r["date"], r["game"]), reverse=True)`,
a
stable descending sort. -/
def pcSortDesc (rs : List PcRec) : List PcRec :=
  rs.foldl (fun acc r => insDesc r acc) []

/-- Dedup then sort, as `parse_and_classify.main` produces the `records`
field of the published dataset (no date-window check occurs anywhere on this
path). -/
def pcMain (records : List PcRec) : List PcRec :=
  pcSortDesc (pcDedupe records [])

/-- The `numbers` CSV column: `" ".join(map(str, r["numbers"]))`, written
identically by both pipelines (`extract_from_snaps.main` line 484,
`parse_and_classify.main` line 823). -/
def csvNumbersField (numbers : List Int) : String :=
  joinSpace (numbers.map intToStr)

/-- Re-reading the `numbers` column: split on whitespace, parse each piece as
an int. -/
def readNumbersField (s : String) : List (Option Int) :=
  (splitWs s).map parseIntStr

/-- All fields of a `SnapRec` except the clock-derived `fetched_at`. -/
def stripFetched (r : SnapRec) :
    Int × String × List Int × Option Int × Option Int × String × String × Option Int :=
  (r.date, r.game, r.numbers, r.jackpot_usd, r.winners, r.source_url,
   r.extraction_method, r.confidence)

/-- Predicate: `r` is the first record of maximal confidence rank in `l`: everything
before it ranks strictly lower, everything after it ranks no higher. -/
def IsFirstMaxRank (l : List SnapRec) (r : SnapRec) : Prop :=
  ∃ l₁ l₂, l = l₁ ++ r :: l₂ ∧ (∀ x ∈ l₁, methodRank x < methodRank r) ∧
    (∀ x ∈ l₂, methodRank x ≤ methodRank r)

/-- A sample canonical record (a valid Powerball draw), used to instantiate
universally quantified statements at concrete inputs. -/
def sampleRec : SnapRec :=
  { date := 20339, game := "Powerball", numbers := [1, 12, 23, 34, 45, 10],
    jackpot_usd := none, winners := none, source_url := "u", fetched_at := 0,
    extraction_method := "json", confidence := none }

/-- The same draw extracted from HTML (equal dedup key, lower confidence). -/
def sampleHtmlRec : SnapRec := { sampleRec with extraction_method := "html" }

/-! ## Theorems -/

/-- The `validate_numbers` truth condition for an int bonus, read off the
rule table. -/
theorem validate_pint_iff (g : String) (n : List Int) (b : Int) :
    validate_numbers g n (.pint b) = true ↔
      ∃ r, gameRules g = some r ∧ n.length = r.mainCount ∧
        (∀ x ∈ n, r.lo ≤ x ∧ x ≤ r.hi) ∧ r.blo ≤ b ∧ b ≤ r.bhi := by
  cases h : gameRules g with
  | none => simp [validate_numbers, h]
  | some rule =>
    simp only [validate_numbers, h]
    by_cases hl : n.length = rule.mainCount
    · by_cases ha : ∀ x ∈ n, rule.lo ≤ x ∧ x ≤ rule.hi
      · simp [hl, ha, List.all_eq_true]
      · simp [hl, ha, List.all_eq_true]
    · simp [hl]

/-- Claim C1: `validate_numbers` returns true iff the game is in the rule
table, the main-ball count matches, every main ball is in the game's main
range, and the bonus is present (an int, or a one-int list treated as that
int) and inside the game's bonus range; it returns false for an unknown game
or a missing bonus (and, being total, raises nothing). -/
theorem claim_C1_validate_numbers :
    (∀ g n (b : Int), validate_numbers g n (.pint b) = true ↔
      ∃ r, gameRules g = some r ∧ n.length = r.mainCount ∧
        (∀ x ∈ n, r.lo ≤ x ∧ x ≤ r.hi) ∧ r.blo ≤ b ∧ b ≤ r.bhi)
    ∧ (∀ g n, validate_numbers g n .pnone = false)
    ∧ (∀ g n b, gameRules g = none → validate_numbers g n b = false)
    ∧ (∀ g n (b : Int), validate_numbers g n (.plist [.pint b]) =
        validate_numbers g n (.pint b)) := by
  refine ⟨validate_pint_iff, ?_, ?_, ?_⟩
  · intro g n
    cases h : gameRules g with
    | none => simp [validate_numbers, h]
    | some rule => simp [validate_numbers, h]
  · intro g n b h
    simp [validate_numbers, h]
  · intro g n b
    cases h : gameRules g with
    | none => simp [validate_numbers, h]
    | some rule => simp [validate_numbers, h]

/-- Witness for C1 at concrete inputs: a valid Powerball draw is accepted, a
missing bonus and an unknown game are rejected. -/
theorem claim_C1_witness :
    validate_numbers "Powerball" [1, 12, 23, 34, 45] (.pint 10) = true ∧
    validate_numbers "Powerball" [1, 12, 23, 34, 45] .pnone = false ∧
    validate_numbers "Bingo" [1, 12, 23, 34, 45] (.pint 10) = false := by
  refine ⟨?_, claim_C1_validate_numbers.2.1 _ _, ?_⟩
  · exact (claim_C1_validate_numbers.1 "Powerball" [1, 12, 23, 34, 45] 10).mpr
      ⟨⟨5, 1, 69, 1, 1, 26, "Powerball"⟩, by decide, by decide, by decide, by decide, by decide⟩
  · exact claim_C1_validate_numbers.2.2.1 _ _ _ (by decide)

/-- Claim C10: on a missing (`None`) or empty date input, `normalize_date`
returns today's date (the `datetime.date.today().isoformat()` value) instead
of reporting the input invalid. -/
theorem claim_C10_empty_input_today (today : String) :
    normalize_date today none = today ∧ normalize_date today (some "") = today :=
  ⟨rfl, rfl⟩

/-- Claim C6, behaviour at the failing input: `"hello world"` matches none of
the four recognized date shapes (ISO, slash, month-name, labelled draw date),
yet `normalize_date` returns its first 10 characters `"hello worl"` as the
date instead of reporting it invalid — the `return s[:10]` fallback the spec
names as an anti-goal. -/
theorem claim_C6_fallback_first10 :
    isoSearch "hello world".data = none ∧
    slashScan true "hello world".data = none ∧
    monthScan true "hello world".data = none ∧
    drawScan "hello world".data = none ∧
    normalize_date "2026-10-12" (some "hello world") = "hello worl" := by
  refine ⟨by decide, by decide, by decide, by decide, by decide⟩

/-- Claim C8: when the rendered text of an HTML capture matches the soft-404
marker regex (`404`, `not found` or `page wasn.t a winner` as whole words,
case-insensitively), `extract_from_html` returns zero candidates — whatever
the numeric content, the game hints, the dates, or the clock; the shipped
repository has no adapter rules, so the adapter-first branch yields nothing. -/
theorem claim_C8_soft404_zero (textOf : String → String)
    (numsHit : String → Option (List Int)) (bonusHit : String → Option Int)
    (dateHit : String → Option String) (parseDT : String → Option PDT)
    (jackpotHit : String → Option Int) (now : PDT) (clock : Int) (html url : String)
    (h : soft404 (textOf html) = true) :
    extract_from_html textOf numsHit bonusHit dateHit parseDT jackpotHit
      now clock html url = [] := by
  simp [extract_from_html, apply_adapter_html, h]

/-- Witness for C8: a page whose text announces `404 ... not found` yields no
candidate even though every abstracted search would have found a valid
Powerball draw. -/
theorem claim_C8_witness :
    extract_from_html (fun _ => "results page: 404 not found")
      (fun _ => some [1, 12, 23, 34, 45]) (fun _ => some 10)
      (fun _ => some "09/13/2025") (fun _ => some ⟨2025, 1757721600⟩)
      (fun _ => none) ⟨2025, 1757808000⟩ 0 "<html>" "https://powerball.com" = [] :=
  claim_C8_soft404_zero _ _ _ _ _ _ _ _ _ _ (by decide)

/-- Claim C3: the per-capture fallback chain short-circuits.  If an earlier
lane yields a nonempty (already-validated) extraction, the capture contributes
exactly that lane's candidates, and the result does not change when every
later lane's extractor and every later lane's input artifact are replaced
arbitrarily — later lanes are never used, and lanes are never merged: the
result is always exactly one lane's output. -/
theorem claim_C3_short_circuit (en eh ev eh2 ev2 : String → List SnapRec)
    (c : Capture) (n2 : Option (List String)) (h2 p2 : Option String) :
    (laneA0 en c ≠ [] →
      processCapture en eh ev c = laneA0 en c ∧
      processCapture en eh2 ev2 ⟨c.body, n2, h2, p2⟩ = laneA0 en c)
    ∧ (laneA0 en c = [] → laneANet en c ≠ [] →
      processCapture en eh ev c = laneANet en c ∧
      processCapture en eh2 ev2 ⟨c.body, c.network, h2, p2⟩ = laneANet en c)
    ∧ (laneA0 en c = [] → laneANet en c = [] → laneBH eh c ≠ [] →
      processCapture en eh ev c = laneBH eh c ∧
      processCapture en eh ev2 ⟨c.body, c.network, c.html, p2⟩ = laneBH eh c)
    ∧ (processCapture en eh ev c = laneA0 en c ∨
       processCapture en eh ev c = laneANet en c ∨
       processCapture en eh ev c = laneBH eh c ∨
       processCapture en eh ev c = laneCV ev c) := by
  have hA0 : laneA0 en ⟨c.body, n2, h2, p2⟩ = laneA0 en c := rfl
  have hA0b : laneA0 en ⟨c.body, c.network, h2, p2⟩ = laneA0 en c := rfl
  have hA0c : laneA0 en ⟨c.body, c.network, c.html, p2⟩ = laneA0 en c := rfl
  have hAN : laneANet en ⟨c.body, c.network, h2, p2⟩ = laneANet en c := rfl
  have hANc : laneANet en ⟨c.body, c.network, c.html, p2⟩ = laneANet en c := rfl
  have hBH : laneBH eh ⟨c.body, c.network, c.html, p2⟩ = laneBH eh c := rfl
  refine ⟨?_, ?_, ?_, ?_⟩
  · intro h
    constructor
    · simp [processCapture, h]
    · simp [processCapture, hA0, h]
  · intro h0 h
    constructor
    · simp [processCapture, h0, h]
    · simp [processCapture, hA0b, hAN, h0, h]
  · intro h0 hn h
    constructor
    · simp [processCapture, h0, hn, h]
    · simp [processCapture, hA0c, hANc, hBH, h0, hn, h]
  · by_cases h0 : laneA0 en c = []
    · by_cases hn : laneANet en c = []
      · by_cases hb : laneBH eh c = []
        · right; right; right; simp [processCapture, h0, hn, hb]
        · right; right; left; simp [processCapture, h0, hn, hb]
      · right; left; simp [processCapture, h0, hn]
    · left; simp [processCapture, h0]

/-- Witness for C3: with a concrete network-JSON extractor that succeeds on
the clean body, the capture's result is that lane's output even though the
HTML and vision artifacts are present and their extractors are replaced. -/
theorem claim_C3_witness :
    processCapture (fun _ => [sampleRec]) (fun _ => []) (fun _ => [])
      ⟨some "body", some ["n"], some "h", some "p"⟩ = [sampleRec] := by
  have h := (claim_C3_short_circuit (fun _ => [sampleRec]) (fun _ => [])
    (fun _ => []) (fun _ => []) (fun _ => [])
    ⟨some "body", some ["n"], some "h", some "p"⟩ none none none).1 (by simp [laneA0])
  exact h.1

/-- Claim C7 counterexample: two runs over the identical capture-derived
inputs differ whenever the `datetime.utcnow()` readings differ — `to_record`
stamps the wall clock into every record's `fetched_at` field, so the
serialized canonical output is not byte-identical across runs. -/
theorem claim_C7_counterexample :
    to_record "Powerball" 20339 [1, 12, 23, 34, 45] (.pint 10) none "u" "json" none 0 ≠
    to_record "Powerball" 20339 [1, 12, 23, 34, 45] (.pint 10) none "u" "json" none 1 := by
  decide

/-- Claim C7 amended: with the clock fixed, assembly is a pure function of
the capture-derived inputs; the clock enters a record only through
`fetched_at` — all other fields agree across runs at different times. -/
theorem claim_C7_amended (game : String) (iso : Int) (nums : List Int) (bonus : PyB)
    (j : Option Int) (u m : String) (conf : Option Int) (clock clock2 : Int) :
    stripFetched (to_record game iso nums bonus j u m conf clock) =
      stripFetched (to_record game iso nums bonus j u m conf clock2) ∧
    (to_record game iso nums bonus j u m conf clock).fetched_at = clock :=
  ⟨rfl, rfl⟩

/-- Claim C4 amended, the positive part: whenever `sane_date` accepts a
parsed datetime against the clock `now`, the elapsed floor-days lie in
`[0, LAST_N_DAYS]`; consequently the normalized date is at most
`LAST_N_DAYS + 1` calendar days before `now`'s date and never after it.  (The
bound `LAST_N_DAYS + 1 = 15` is sharp: day-floor happens on the parsed
timestamp, not the normalized date.) -/
theorem claim_C4_window (now dt : PDT) (d : Int)
    (h : sane_date now (some dt) = some d) :
    d = dayOf dt.sec ∧
    0 ≤ Int.fdiv (now.sec - dt.sec) SECONDS_PER_DAY ∧
    Int.fdiv (now.sec - dt.sec) SECONDS_PER_DAY ≤ LAST_N_DAYS ∧
    dayOf now.sec - (LAST_N_DAYS + 1) ≤ d ∧ d ≤ dayOf now.sec := by
  simp only [sane_date] at h
  split_ifs at h with hy hw
  have hd : dayOf dt.sec = d := Option.some.inj h
  subst hd
  push_neg at hw
  unfold dayOf SECONDS_PER_DAY LAST_N_DAYS at *
  rw [Int.fdiv_eq_ediv _ (by norm_num), Int.fdiv_eq_ediv _ (by norm_num),
    Int.fdiv_eq_ediv _ (by norm_num)] at *
  omega

/-- Witness for C4's window theorem at a concrete clock and datetime: a draw
three days old is accepted and its day index obeys the window bounds. -/
theorem claim_C4_witness :
    sane_date ⟨2025, 432100⟩ (some ⟨2025, 172800⟩) = some 2 ∧
    0 ≤ Int.fdiv (432100 - 172800) SECONDS_PER_DAY ∧
    Int.fdiv (432100 - 172800) SECONDS_PER_DAY ≤ LAST_N_DAYS ∧
    dayOf 432100 - (LAST_N_DAYS + 1) ≤ 2 ∧ (2 : Int) ≤ dayOf 432100 := by
  have h : sane_date ⟨2025, 432100⟩ (some ⟨2025, 172800⟩) = some 2 := by decide
  have hw := claim_C4_window ⟨2025, 432100⟩ ⟨2025, 172800⟩ 2 h
  exact ⟨h, hw.2.1, hw.2.2.1, hw.2.2.2.1, hw.2.2.2.2⟩

/-- Claim C4 counterexample: in the `parse_and_classify` pipeline a record
whose normalized date is `2024-01-01` — far more than 14 days before the run
clock recorded in its own `fetched_at` — is promoted unchanged into the
canonical output: `normalize_date` applies no recency window and neither does
the dedup/sort of `main`. -/
theorem claim_C4_counterexample :
    normalize_date "2025-10-01" (some "2024-01-01") = "2024-01-01" ∧
    pcMain [make_record "2024-01-01" "Powerball" [1, 12, 23, 34, 45, 10] none none "u"
        "2025-10-01T00:00:00Z"] =
      [make_record "2024-01-01" "Powerball" [1, 12, 23, 34, 45, 10] none none "u"
        "2025-10-01T00:00:00Z"] := by
  exact ⟨by decide, by decide⟩

/-- Every rule in the table has its bonus range inside its main range. -/
theorem gameRules_bonus_sub (g : String) (r : GameRule) (h : gameRules g = some r) :
    r.lo ≤ r.blo ∧ r.bhi ≤ r.hi := by
  unfold gameRules GAME_RULES at h
  simp only [List.find?] at h
  by_cases h1 : ("Powerball" : String) = g
  · simp [h1] at h; subst h; exact ⟨by norm_num, by norm_num⟩
  · simp [h1] at h
    by_cases h2 : ("Mega Millions" : String) = g
    · simp [h2] at h; subst h; exact ⟨by norm_num, by norm_num⟩
    · simp [h2] at h
      by_cases h3 : ("Lucky for Life" : String) = g
      · simp [h3] at h; subst h; exact ⟨by norm_num, by norm_num⟩
      · simp [h3] at h
        by_cases h4 : ("Cash4Life" : String) = g
        · simp [h4] at h; subst h; exact ⟨by norm_num, by norm_num⟩
        · simp [h4] at h
          by_cases h5 : ("Lotto America" : String) = g
          · simp [h5] at h; subst h; exact ⟨by norm_num, by norm_num⟩
          · simp [h5] at h

/-- Claim C5 counterexample: a validated Powerball draw assembled by
`to_record` has a `numbers` list of length 6, not the game's `mainCount` 5 —
the bonus ball is appended to the main balls. -/
theorem claim_C5_counterexample :
    validate_numbers "Powerball" [1, 12, 23, 34, 45] (.pint 10) = true ∧
    (gameRules "Powerball").map GameRule.mainCount = some 5 ∧
    (to_record "Powerball" 20339 [1, 12, 23, 34, 45] (.pint 10) none "u" "json" none 0).numbers
      = [1, 12, 23, 34, 45, 10] ∧
    (to_record "Powerball" 20339 [1, 12, 23, 34, 45] (.pint 10) none "u" "json" none 0).numbers.length
      = 6 := by
  exact ⟨by decide, by decide, by decide, by decide⟩

/-- Claim C5 amended: a record assembled by `to_record` from inputs accepted
by `validate_numbers` has `numbers` of length `mainCount + 1` (the main balls
plus the appended bonus), and every value — bonus included — lies within the
game's main range `[lo, hi]`, since each game's bonus range is contained in
its main range. -/
theorem claim_C5_amended (game : String) (rule : GameRule) (nums : List Int) (b : Int)
    (iso : Int) (j : Option Int) (u m : String) (conf : Option Int) (clock : Int)
    (hg : gameRules game = some rule)
    (hv : validate_numbers game nums (.pint b) = true) :
    (to_record game iso nums (.pint b) j u m conf clock).numbers.length = rule.mainCount + 1 ∧
    ∀ x ∈ (to_record game iso nums (.pint b) j u m conf clock).numbers,
      rule.lo ≤ x ∧ x ≤ rule.hi := by
  obtain ⟨r, hr, hlen, hrange, hb1, hb2⟩ := (validate_pint_iff game nums b).mp hv
  rw [hg] at hr
  injection hr with hr
  subst hr
  have hsub := gameRules_bonus_sub game rule hg
  constructor
  · simp [to_record, hlen]
  · intro x hx
    simp [to_record] at hx
    rcases hx with hx | hx
    · exact hrange x hx
    · subst hx
      exact ⟨le_trans hsub.1 hb1, le_trans hb2 hsub.2⟩

/-- Witness for C5's amended theorem at a concrete valid Powerball draw. -/
theorem claim_C5_witness :
    (to_record "Powerball" 20339 [1, 12, 23, 34, 45] (.pint 10) none "u" "json" none 0).numbers.length
      = 5 + 1 ∧
    ∀ x ∈ (to_record "Powerball" 20339 [1, 12, 23, 34, 45] (.pint 10) none "u" "json"
      none 0).numbers, (1 : Int) ≤ x ∧ x ≤ 69 :=
  claim_C5_amended "Powerball" ⟨5, 1, 69, 1, 1, 26, "Powerball"⟩ [1, 12, 23, 34, 45] 10
    20339 none "u" "json" none 0 (by decide) (by decide)

theorem digitCh_toNat (d : Nat) (h : d < 10) : (digitCh d).toNat = d + 48 := by
  interval_cases d <;> decide

theorem digitCh_isDigit (d : Nat) (h : d < 10) : (digitCh d).isDigit = true := by
  interval_cases d <;> decide

theorem digitCh_not_ws (d : Nat) (h : d < 10) : isWsChar (digitCh d) = false := by
  interval_cases d <;> decide

theorem natDigitsRev_lt (n : Nat) : ∀ d ∈ natDigitsRev n, d < 10 := by
  induction n using Nat.strong_induction_on with
  | _ n ih =>
    rw [natDigitsRev]
    split_ifs with h
    · simp
    · intro d hd
      rcases List.mem_cons.mp hd with hd | hd
      · subst hd; exact Nat.mod_lt n (by norm_num)
      · exact ih (n / 10) (Nat.div_lt_self (Nat.pos_of_ne_zero h) (by norm_num)) d hd

theorem parse_foldl (n : Nat) : ∀ a : Nat,
    List.foldl (fun acc c => 10 * acc + (c.toNat - 48)) a ((natDigitsRev n).reverse.map digitCh)
      = a * 10 ^ (natDigitsRev n).length + n := by
  induction n using Nat.strong_induction_on with
  | _ n ih =>
    intro a
    rw [natDigitsRev]
    split_ifs with h
    · simp [h]
    · simp only [List.reverse_cons, List.map_append, List.foldl_append, List.map_cons,
        List.map_nil, List.foldl_cons, List.foldl_nil, List.length_cons]
      rw [ih (n / 10) (Nat.div_lt_self (Nat.pos_of_ne_zero h) (by norm_num))]
      have hm : (digitCh (n % 10)).toNat - 48 = n % 10 := by
        rw [digitCh_toNat _ (Nat.mod_lt n (by norm_num))]
        omega
      rw [hm, pow_succ]
      set L := (natDigitsRev (n / 10)).length with hL
      set q := n / 10 with hq
      set r := n % 10 with hr
      have hn : n = 10 * q + r := by omega
      rw [hn]
      ring

theorem parseNat_natToChars (n : Nat) : parseNatChars (natToChars n) = n := by
  unfold natToChars parseNatChars
  split_ifs with h
  · subst h; decide
  · exact (parse_foldl n 0).trans (by simp)

theorem natToChars_ne_nil (n : Nat) : natToChars n ≠ [] := by
  unfold natToChars
  split_ifs with h
  · simp
  · rw [natDigitsRev]
    simp [h]

theorem natToChars_digits (n : Nat) : ∀ c ∈ natToChars n, c.isDigit = true := by
  unfold natToChars
  split_ifs with h
  · intro c hc
    simp at hc
    subst hc
    decide
  · intro c hc
    simp at hc
    obtain ⟨d, hd, hdc⟩ := hc
    subst hdc
    exact digitCh_isDigit d (natDigitsRev_lt n d hd)

theorem parseIntStr_intToStr (i : Int) : parseIntStr (intToStr i) = some i := by
  cases i with
  | ofNat n =>
    rcases hc : natToChars n with _ | ⟨c, cs⟩
    · exact absurd hc (natToChars_ne_nil n)
    · have hdig : (c :: cs).all Char.isDigit = true := by
        rw [← hc]
        simp only [List.all_eq_true]
        intro c' hc'
        exact natToChars_digits n c' hc'
      have hcne : c ≠ '-' := by
        have : c.isDigit = true := by
          have := natToChars_digits n c (by rw [hc]; exact List.mem_cons_self c cs)
          exact this
        intro hcc
        rw [hcc] at this
        exact absurd this (by decide)
      show parseIntStr ⟨natToChars n⟩ = some (Int.ofNat n)
      rw [hc]
      unfold parseIntStr
      split
      · simp_all
      · rename_i heq
        simp only [String.data] at heq
        rw [List.cons.injEq] at heq
        exact absurd heq.1 hcne
      · change (if (c :: cs).all Char.isDigit = true then
            some ((parseNatChars (c :: cs) : Nat) : Int) else none) = some (Int.ofNat n)
        rw [if_pos hdig, ← hc, parseNat_natToChars]
        rfl
  | negSucc n =>
    have hdig : (natToChars (n + 1)).all Char.isDigit = true := by
      simp only [List.all_eq_true]
      intro c' hc'
      exact natToChars_digits (n + 1) c' hc'
    show parseIntStr ⟨'-' :: natToChars (n + 1)⟩ = some (Int.negSucc n)
    change (if natToChars (n + 1) ≠ [] ∧ (natToChars (n + 1)).all Char.isDigit then
        some (-(parseNatChars (natToChars (n + 1)) : Int)) else none) = some (Int.negSucc n)
    rw [if_pos ⟨natToChars_ne_nil (n + 1), hdig⟩, parseNat_natToChars]
    simp [Int.negSucc_eq]

theorem intToStr_no_ws (i : Int) : ∀ c ∈ (intToStr i).data, isWsChar c = false := by
  have hdig : ∀ n : Nat, ∀ c ∈ natToChars n, isWsChar c = false := by
    intro n c hc
    unfold natToChars at hc
    split_ifs at hc with h
    · simp at hc; subst hc; decide
    · simp at hc
      obtain ⟨d, hd, hdc⟩ := hc
      subst hdc
      exact digitCh_not_ws d (natDigitsRev_lt n d hd)
  cases i with
  | ofNat n => exact hdig n
  | negSucc n =>
    intro c hc
    rcases List.mem_cons.mp hc with hc | hc
    · subst hc; decide
    · exact hdig (n + 1) c hc

theorem intToStr_ne_nil (i : Int) : (intToStr i).data ≠ [] := by
  cases i with
  | ofNat n => exact natToChars_ne_nil n
  | negSucc n => simp [intToStr]

theorem splitWsAux_token (tok : List Char) : ∀ (cs acc : List Char),
    (∀ c ∈ tok, isWsChar c = false) →
    splitWsAux (tok ++ cs) acc = splitWsAux cs (tok.reverse ++ acc) := by
  induction tok with
  | nil => intro cs acc _; simp
  | cons c t ih =>
    intro cs acc h
    have hc : isWsChar c = false := h c (List.mem_cons_self c t)
    have step : splitWsAux ((c :: t) ++ cs) acc = splitWsAux (t ++ cs) (c :: acc) := by
      simp [splitWsAux, hc]
    rw [step, ih cs (c :: acc) (fun x hx => h x (List.mem_cons_of_mem c hx))]
    simp

theorem splitWs_join (toks : List (List Char))
    (h : ∀ t ∈ toks, t ≠ [] ∧ ∀ c ∈ t, isWsChar c = false) :
    splitWsAux (joinChars toks) [] = toks := by
  induction toks with
  | nil => simp [joinChars, splitWsAux]
  | cons t ts ih =>
    cases ts with
    | nil =>
      have ht := h t (List.mem_cons_self t [])
      have : joinChars [t] = t ++ [] := by simp [joinChars]
      rw [this, splitWsAux_token t [] [] ht.2]
      simp [splitWsAux, ht.1]
    | cons t2 ts2 =>
      have ht := h t (List.mem_cons_self t _)
      have hj : joinChars (t :: t2 :: ts2) = t ++ ' ' :: joinChars (t2 :: ts2) := rfl
      rw [hj, splitWsAux_token t _ [] ht.2]
      have hrev : t.reverse ++ ([] : List Char) = t.reverse := by simp
      rw [hrev]
      have step2 : splitWsAux (' ' :: joinChars (t2 :: ts2)) t.reverse
          = t.reverse.reverse :: splitWsAux (joinChars (t2 :: ts2)) [] := by
        have hne : t.reverse ≠ [] := by simp [ht.1]
        simp [splitWsAux, isWsChar, hne]
      rw [step2, List.reverse_reverse, ih (fun x hx => h x (List.mem_cons_of_mem t hx))]

/-- Claim C9: serializing a record's `numbers` to the CSV column
(`" ".join(map(str, numbers))`) and re-reading it (split on whitespace, parse
each piece as an int) reproduces the original ordered numbers list exactly. -/
theorem claim_C9_roundtrip (ns : List Int) :
    readNumbersField (csvNumbersField ns) = ns.map some := by
  unfold readNumbersField csvNumbersField splitWs joinSpace
  have hstr : ∀ s : String, (⟨s.data⟩ : String) = s := fun s => rfl
  rw [show (ns.map intToStr).map String.data = ns.map (fun i => (intToStr i).data) by
    simp [Function.comp]]
  rw [splitWs_join (ns.map fun i => (intToStr i).data) (by
    intro t ht
    simp at ht
    obtain ⟨i, _, hit⟩ := ht
    subst hit
    exact ⟨intToStr_ne_nil i, intToStr_no_ws i⟩)]
  simp [Function.comp, hstr, parseIntStr_intToStr]

theorem lookup_setK_same (k : SnapKey) (v : SnapRec) :
    ∀ m : List (SnapKey × SnapRec), lookupK k (setK k v m) = some v := by
  intro m
  induction m with
  | nil => simp [setK, lookupK]
  | cons e t ih =>
    by_cases he : e.1 = k
    · simp [setK, he, lookupK]
    · simp [setK, he, lookupK, ih]

theorem lookup_setK_other (k k' : SnapKey) (v : SnapRec) (hne : k' ≠ k) :
    ∀ m : List (SnapKey × SnapRec), lookupK k' (setK k v m) = lookupK k' m := by
  intro m
  induction m with
  | nil => simp [setK, lookupK, Ne.symm hne]
  | cons e t ih =>
    by_cases he : e.1 = k
    · subst he
      simp [setK, lookupK, Ne.symm hne]
    · simp [setK, he, lookupK]
      split
      · rfl
      · exact ih

theorem lookup_dedupeStep_same (seen : List (SnapKey × SnapRec)) (r : SnapRec) (k : SnapKey)
    (hk : keyOf r = k) :
    lookupK k (dedupeStep seen r) = keepBetter (lookupK k seen) r := by
  subst hk
  unfold dedupeStep keepBetter
  cases h : lookupK (keyOf r) seen with
  | none => simp [lookup_setK_same]
  | some old =>
    dsimp only
    split_ifs with hr
    · simp [lookup_setK_same]
    · simp [h]

theorem lookup_dedupeStep_other (seen : List (SnapKey × SnapRec)) (r : SnapRec) (k : SnapKey)
    (hk : keyOf r ≠ k) :
    lookupK k (dedupeStep seen r) = lookupK k seen := by
  unfold dedupeStep
  cases h : lookupK (keyOf r) seen with
  | none => simp [lookup_setK_other _ _ _ (Ne.symm hk)]
  | some old =>
    dsimp only
    split_ifs with hr
    · simp [lookup_setK_other _ _ _ (Ne.symm hk)]
    · rfl

theorem lookup_foldl (rs : List SnapRec) : ∀ (seen : List (SnapKey × SnapRec)) (k : SnapKey),
    lookupK k (rs.foldl dedupeStep seen) =
      (rs.filter fun r => decide (keyOf r = k)).foldl keepBetter (lookupK k seen) := by
  induction rs with
  | nil => intro seen k; simp
  | cons r t ih =>
    intro seen k
    by_cases hk : keyOf r = k
    · rw [List.foldl_cons, List.filter_cons_of_pos (by simp [hk]), List.foldl_cons,
        ih (dedupeStep seen r) k, lookup_dedupeStep_same seen r k hk]
    · rw [List.foldl_cons, List.filter_cons_of_neg (by simp [hk]),
        ih (dedupeStep seen r) k, lookup_dedupeStep_other seen r k hk]


theorem mem_setK (k : SnapKey) (v : SnapRec) (e : SnapKey × SnapRec) :
    ∀ m : List (SnapKey × SnapRec), e ∈ setK k v m → e = (k, v) ∨ e ∈ m := by
  intro m
  induction m with
  | nil => simp [setK]
  | cons f t ih =>
    by_cases hf : f.1 = k
    · simp [setK, hf]
      rintro (h | h)
      · exact Or.inl h
      · exact Or.inr (Or.inr h)
    · simp [setK, hf]
      rintro (h | h)
      · exact Or.inr (Or.inl h)
      · rcases ih h with h' | h'
        · exact Or.inl h'
        · exact Or.inr (Or.inr h')

theorem entries_key_step (seen : List (SnapKey × SnapRec)) (r : SnapRec)
    (h : ∀ e ∈ seen, e.1 = keyOf e.2) : ∀ e ∈ dedupeStep seen r, e.1 = keyOf e.2 := by
  intro e he
  unfold dedupeStep at he
  cases hl : lookupK (keyOf r) seen with
  | none =>
    rw [hl] at he
    dsimp only at he
    rcases mem_setK _ _ _ _ he with h' | h'
    · subst h'; rfl
    · exact h e h'
  | some old =>
    rw [hl] at he
    dsimp only at he
    by_cases hr : rankOf old.extraction_method < rankOf r.extraction_method
    · rw [if_pos hr] at he
      rcases mem_setK _ _ _ _ he with h' | h'
      · subst h'; rfl
      · exact h e h'
    · rw [if_neg hr] at he
      exact h e he

theorem entries_key (rs : List SnapRec) : ∀ seen : List (SnapKey × SnapRec),
    (∀ e ∈ seen, e.1 = keyOf e.2) → ∀ e ∈ rs.foldl dedupeStep seen, e.1 = keyOf e.2 := by
  induction rs with
  | nil => intro seen h; simpa using h
  | cons r t ih =>
    intro seen h
    rw [List.foldl_cons]
    exact ih (dedupeStep seen r) (entries_key_step seen r h)

theorem lookup_none_iff (k : SnapKey) :
    ∀ m : List (SnapKey × SnapRec), lookupK k m = none ↔ k ∉ m.map Prod.fst := by
  intro m
  induction m with
  | nil => simp [lookupK]
  | cons e t ih =>
    by_cases he : e.1 = k
    · simp [lookupK, he]
    · simp [lookupK, he, ih, Ne.symm he]

theorem keys_setK_mem (k : SnapKey) (v : SnapRec) :
    ∀ m : List (SnapKey × SnapRec), k ∈ m.map Prod.fst →
      (setK k v m).map Prod.fst = m.map Prod.fst := by
  intro m
  induction m with
  | nil => simp
  | cons e t ih =>
    intro hm
    by_cases he : e.1 = k
    · simp [setK, he]
    · have : k ∈ t.map Prod.fst := by
        rcases List.mem_cons.mp hm with h | h
        · exact absurd h.symm he
        · exact h
      simp [setK, he, ih this]

theorem keys_setK_not_mem (k : SnapKey) (v : SnapRec) :
    ∀ m : List (SnapKey × SnapRec), k ∉ m.map Prod.fst →
      (setK k v m).map Prod.fst = m.map Prod.fst ++ [k] := by
  intro m
  induction m with
  | nil => simp [setK]
  | cons e t ih =>
    intro hm
    simp at hm
    have he : ¬ e.1 = k := fun h => hm.1 h.symm
    simp [setK, he, ih (by simpa using hm.2)]

theorem keys_nodup_step (seen : List (SnapKey × SnapRec)) (r : SnapRec)
    (h : (seen.map Prod.fst).Nodup) : ((dedupeStep seen r).map Prod.fst).Nodup := by
  unfold dedupeStep
  cases hl : lookupK (keyOf r) seen with
  | none =>
    dsimp only
    rw [keys_setK_not_mem _ _ _ ((lookup_none_iff _ _).mp hl)]
    simp [List.nodup_append, h, (lookup_none_iff _ _).mp hl]
  | some old =>
    dsimp only
    split_ifs with hr
    · have hmem : keyOf r ∈ seen.map Prod.fst := by
        by_contra hcon
        rw [(lookup_none_iff _ _).mpr hcon] at hl
        exact Option.noConfusion hl
      rw [keys_setK_mem _ _ _ hmem]
      exact h
    · exact h

theorem keys_nodup (rs : List SnapRec) : ∀ seen : List (SnapKey × SnapRec),
    ((seen.map Prod.fst).Nodup) → (((rs.foldl dedupeStep seen).map Prod.fst).Nodup) := by
  induction rs with
  | nil => intro seen h; simpa using h
  | cons r t ih =>
    intro seen h
    rw [List.foldl_cons]
    exact ih (dedupeStep seen r) (keys_nodup_step seen r h)

theorem lookup_mem (k : SnapKey) (v : SnapRec) :
    ∀ m : List (SnapKey × SnapRec), lookupK k m = some v → (k, v) ∈ m := by
  intro m
  induction m with
  | nil => simp [lookupK]
  | cons e t ih =>
    intro h
    by_cases he : e.1 = k
    · rw [lookupK, if_pos he] at h
      injection h with h
      have he2 : e = (k, v) := by
        cases e
        simp_all
      exact List.mem_cons.mpr (Or.inl he2.symm)
    · rw [lookupK, if_neg he] at h
      exact List.mem_cons_of_mem e (ih h)

theorem mem_lookup (k : SnapKey) (v : SnapRec) :
    ∀ m : List (SnapKey × SnapRec), (k, v) ∈ m → (m.map Prod.fst).Nodup →
      lookupK k m = some v := by
  intro m
  induction m with
  | nil => simp
  | cons e t ih =>
    intro hm hn
    rcases List.mem_cons.mp hm with h | h
    · rw [← h, lookupK]
      simp
    · have hk : k ∈ t.map Prod.fst := by
        exact List.mem_map.mpr ⟨(k, v), h, rfl⟩
      have he : ¬ e.1 = k := by
        simp at hn
        intro hek
        exact hn.1 v (by rw [hek]; exact h)
      rw [lookupK, if_neg he]
      exact ih h (by simp at hn; exact hn.2)

theorem foldl_keepBetter_some (l : List SnapRec) : ∀ b : SnapRec,
    ∃ r, l.foldl keepBetter (some b) = some r ∧ IsFirstMaxRank (b :: l) r := by
  induction l with
  | nil =>
    intro b
    exact ⟨b, rfl, [], [], rfl, by simp, by simp⟩
  | cons a t ih =>
    intro b
    rw [List.foldl_cons]
    by_cases hr : rankOf b.extraction_method < rankOf a.extraction_method
    · have hk : keepBetter (some b) a = some a := by simp [keepBetter, hr]
      rw [hk]
      obtain ⟨r, hfold, l₁, l₂, hdec, h1, h2⟩ := ih a
      have ha : methodRank a ≤ methodRank r := by
        rcases l₁ with _ | ⟨y, l₁'⟩
        · simp only [List.nil_append, List.cons.injEq] at hdec
          rw [hdec.1]
        · simp only [List.cons_append, List.cons.injEq] at hdec
          exact le_of_lt (hdec.1 ▸ h1 y (List.mem_cons_self y l₁'))
      refine ⟨r, hfold, b :: l₁, l₂, by rw [List.cons_append, ← hdec], ?_, h2⟩
      intro x hx
      rcases List.mem_cons.mp hx with hx | hx
      · subst hx
        exact lt_of_lt_of_le hr ha
      · exact h1 x hx
    · have hk : keepBetter (some b) a = some b := by simp [keepBetter, hr]
      rw [hk]
      obtain ⟨r, hfold, l₁, l₂, hdec, h1, h2⟩ := ih b
      rcases l₁ with _ | ⟨y, l₁'⟩
      · simp only [List.nil_append, List.cons.injEq] at hdec
        refine ⟨r, hfold, [], a :: t, by rw [List.nil_append, ← hdec.1, hdec.2], by simp, ?_⟩
        intro x hx
        rcases List.mem_cons.mp hx with hx | hx
        · subst hx
          rw [← hdec.1]
          exact not_lt.mp hr
        · rw [hdec.2] at hx
          exact hdec.1 ▸ h2 x (by rw [← hdec.2] at hx; rw [hdec.2] at hx; exact hx)
      · simp only [List.cons_append, List.cons.injEq] at hdec
        have hbr : methodRank b < methodRank r := hdec.1 ▸ h1 y (List.mem_cons_self y l₁')
        refine ⟨r, hfold, b :: a :: l₁', l₂, by rw [hdec.2]; simp, ?_, h2⟩
        intro x hx
        rcases List.mem_cons.mp hx with hx | hx
        · subst hx
          exact hbr
        · rcases List.mem_cons.mp hx with hx | hx
          · subst hx
            exact lt_of_le_of_lt (not_lt.mp hr) hbr
          · exact h1 x (List.mem_cons_of_mem y hx)

theorem foldl_keepBetter_none (l : List SnapRec) (h : l ≠ []) :
    ∃ r, l.foldl keepBetter none = some r ∧ IsFirstMaxRank l r := by
  cases l with
  | nil => exact absurd rfl h
  | cons x t =>
    rw [List.foldl_cons]
    exact foldl_keepBetter_some t x

/-- Claim C2: `dedupe_keep_best` returns exactly one record per uniqueness
key `(game, date, numbers)` — the output keys are pairwise distinct and cover
exactly the input keys — and, per key, the record kept is the first-seen one
of maximal confidence rank (`json > html > vision`, unknown methods rank 0);
in particular, of an html/json pair with equal key, the json record survives
in either input order. -/
theorem claim_C2_dedupe (rs : List SnapRec) :
    ((dedupe_keep_best rs).map keyOf).Nodup
    ∧ (∀ k : SnapKey, (∃ r ∈ dedupe_keep_best rs, keyOf r = k) ↔ ∃ r ∈ rs, keyOf r = k)
    ∧ (∀ r ∈ dedupe_keep_best rs,
        IsFirstMaxRank (rs.filter fun x => decide (keyOf x = keyOf r)) r)
    ∧ (∀ r1 r2 : SnapRec, keyOf r1 = keyOf r2 → r1.extraction_method = "html" →
        r2.extraction_method = "json" →
        dedupe_keep_best [r1, r2] = [r2] ∧ dedupe_keep_best [r2, r1] = [r2]) := by
  have hkeys : ∀ e ∈ rs.foldl dedupeStep [], e.1 = keyOf e.2 := entries_key rs [] (by simp)
  have hnodup : ((rs.foldl dedupeStep []).map Prod.fst).Nodup := keys_nodup rs [] (by simp)
  have hlk : ∀ k, lookupK k (rs.foldl dedupeStep []) =
      (rs.filter fun r => decide (keyOf r = k)).foldl keepBetter none := by
    intro k
    rw [lookup_foldl]
    rfl
  have hmem_dedupe : ∀ r ∈ dedupe_keep_best rs,
      lookupK (keyOf r) (rs.foldl dedupeStep []) = some r := by
    intro r hr
    unfold dedupe_keep_best at hr
    obtain ⟨e, he, hee⟩ := List.mem_map.mp hr
    have h1 : e.1 = keyOf e.2 := hkeys e he
    have he2 : e = (keyOf r, r) := by
      cases e
      simp only at hee
      subst hee
      simp only at h1
      rw [h1]
    rw [he2] at he
    exact mem_lookup _ _ _ he hnodup
  refine ⟨?_, ?_, ?_, ?_⟩
  · unfold dedupe_keep_best
    rw [List.map_map]
    have : List.map (keyOf ∘ Prod.snd) (rs.foldl dedupeStep []) =
        List.map Prod.fst (rs.foldl dedupeStep []) := by
      apply List.map_congr_left
      intro e he
      exact (hkeys e he).symm
    rw [this]
    exact hnodup
  · intro k
    constructor
    · rintro ⟨r, hr, hkr⟩
      have hlkr := hmem_dedupe r hr
      rw [hkr, hlk k] at hlkr
      by_cases hf : (rs.filter fun x => decide (keyOf x = k)) = []
      · rw [hf] at hlkr
        exact absurd hlkr (by simp)
      · obtain ⟨x, hx⟩ := List.exists_mem_of_ne_nil _ hf
        have hx' := List.mem_filter.mp hx
        exact ⟨x, hx'.1, by simpa using hx'.2⟩
    · rintro ⟨x, hx, hkx⟩
      have hf : (rs.filter fun r => decide (keyOf r = k)) ≠ [] := by
        intro hcon
        have hxin : x ∈ rs.filter fun r => decide (keyOf r = k) :=
          List.mem_filter.mpr ⟨hx, by simp [hkx]⟩
        rw [hcon] at hxin
        exact absurd hxin (List.not_mem_nil x)
      obtain ⟨w, hw, hwmax⟩ := foldl_keepBetter_none _ hf
      have hlkw : lookupK k (rs.foldl dedupeStep []) = some w := by rw [hlk k, hw]
      have hwin : (k, w) ∈ rs.foldl dedupeStep [] := lookup_mem _ _ _ hlkw
      have hkww : k = keyOf w := hkeys (k, w) hwin
      refine ⟨w, ?_, hkww.symm⟩
      unfold dedupe_keep_best
      exact List.mem_map.mpr ⟨(k, w), hwin, rfl⟩
  · intro r hr
    have hl := hmem_dedupe r hr
    rw [hlk] at hl
    by_cases hf : (rs.filter fun x => decide (keyOf x = keyOf r)) = []
    · rw [hf] at hl
      exact absurd hl (by simp)
    · obtain ⟨w, hw, hwmax⟩ := foldl_keepBetter_none _ hf
      rw [hw] at hl
      injection hl with hl
      subst hl
      exact hwmax
  · intro r1 r2 hk h1 h2
    constructor
    · unfold dedupe_keep_best
      simp only [List.foldl_cons, List.foldl_nil]
      have s1 : dedupeStep [] r1 = [(keyOf r1, r1)] := rfl
      rw [s1]
      have s2 : dedupeStep [(keyOf r1, r1)] r2 = [(keyOf r2, r2)] := by
        unfold dedupeStep
        have hl2 : lookupK (keyOf r2) [(keyOf r1, r1)] = some r1 := by
          simp [lookupK, hk]
        rw [hl2]
        dsimp only
        rw [if_pos (by rw [h1, h2]; decide)]
        simp [setK, hk]
      rw [s2]
      rfl
    · unfold dedupe_keep_best
      simp only [List.foldl_cons, List.foldl_nil]
      have s1 : dedupeStep [] r2 = [(keyOf r2, r2)] := rfl
      rw [s1]
      have s2 : dedupeStep [(keyOf r2, r2)] r1 = [(keyOf r2, r2)] := by
        unfold dedupeStep
        have hl2 : lookupK (keyOf r1) [(keyOf r2, r2)] = some r2 := by
          simp [lookupK, hk]
        rw [hl2]
        dsimp only
        rw [if_neg (by rw [h1, h2]; decide)]
      rw [s2]
      rfl

/-- Witness for C2 at concrete records: the same Powerball draw extracted via
html and via json, deduplicated in both orders, keeps only the json record. -/
theorem claim_C2_witness :
    dedupe_keep_best [sampleHtmlRec, sampleRec] = [sampleRec] ∧
    dedupe_keep_best [sampleRec, sampleHtmlRec] = [sampleRec] :=
  (claim_C2_dedupe []).2.2.2 sampleHtmlRec sampleRec (by decide) rfl rfl
